import Mathlib

/-!
Verification of the numerical-methods library (root finding and integration).

The Python sources are shallowly embedded over ℚ: the caller-supplied
function is a value of type ℚ → ℚ, every loop becomes a fuel-indexed
recursive function whose explicit max-steps check mirrors the source
(the fuel is maxSteps + 1, so the fuel-zero branch is unreachable from
the public entry points), and a raised exception becomes an error value.
Where a claim concerns evaluation behaviour, the embedding additionally
returns the list of arguments at which the user function was evaluated,
in source order; this ghost output copies the call sites of the Python
code and influences nothing.
-/

namespace Hw6

/-- Error values standing for the exceptions raised by the Python code. -/
inductive RootErr where
  | maxSteps
  | invalidBracket
  | horizontalSecant
  | zeroDeriv
deriving DecidableEq, Repr

/-- Successful output of a rootfinding.py routine: the root estimate, the
iteration trace (the Python iterations list) and the step count. -/
structure RootResult where
  root : ℚ
  trace : List (ℚ × ℚ)
  steps : ℕ
deriving DecidableEq, Repr

/-- Observable part of a result that ignores the diagnostic trace: the
root estimate and step count on success, the error kind on failure. -/
def resultSig : Except RootErr RootResult → Except RootErr (ℚ × ℕ)
  | Except.ok r => Except.ok (r.root, r.steps)
  | Except.error e => Except.error e

/-- Property of a result: on success the trace has exactly one entry more
than the step count (the initial-guess entry); vacuous on failure. -/
def traceLenOk : Except RootErr RootResult → Prop
  | Except.ok r => r.trace.length = r.steps + 1
  | Except.error _ => True

/-- Loop of rootfinding.py root_simple (lines 103-114).  State: current
guess x, current step dx, step counter, trace.  The tested function value
f0 is fixed before the loop and never updated, exactly as in the source;
fx is recomputed from x + dx at its two uses (f is pure).  Stepping back
after a sign change restores the previous x exactly over ℚ, so the
stepped-back state is written as x itself. -/
def rootSimpleGo (f : ℚ → ℚ) (acc f0 : ℚ) (ms : ℕ) (dbg : Bool) :
    ℕ → ℚ → ℚ → ℕ → List (ℚ × ℚ) → Except RootErr RootResult
  | 0, _, _, _, _ => Except.error RootErr.maxSteps
  | fuel + 1, x, dx, step, tr =>
    if |dx| > |acc| ∧ f0 ≠ 0 then
      if f0 * f (x + dx) < 0 then
        if step + 1 > ms then Except.error RootErr.maxSteps
        else rootSimpleGo f acc f0 ms dbg fuel x (dx / 2) (step + 1)
          (if dbg then tr ++ [(x, f (x + dx))] else tr)
      else
        if step + 1 > ms then Except.error RootErr.maxSteps
        else rootSimpleGo f acc f0 ms dbg fuel (x + dx) dx (step + 1)
          (if dbg then tr ++ [(x + dx, f (x + dx))] else tr)
    else Except.ok ⟨x, tr, step⟩

/-- Embedding of rootfinding.py root_simple (lines 63-115). -/
def root_simple (f : ℚ → ℚ) (x dx acc : ℚ) (ms : ℕ) (dbg : Bool) :
    Except RootErr RootResult :=
  rootSimpleGo f acc (f x) ms dbg (ms + 1) x dx 0
    (if dbg then [(x, f x)] else [])

/-- Helper: the step counter never decreases along a successful run of the
simple-search loop. -/
theorem rootSimpleGo_steps_le (f : ℚ → ℚ) (acc f0 : ℚ) (ms : ℕ) (dbg : Bool) :
    ∀ (fuel : ℕ) (x dx : ℚ) (step : ℕ) (tr : List (ℚ × ℚ)) (r : RootResult),
      rootSimpleGo f acc f0 ms dbg fuel x dx step tr = Except.ok r →
      step ≤ r.steps := by
  intro fuel
  induction fuel with
  | zero => intro x dx step tr r h; simp [rootSimpleGo] at h
  | succ fuel ih =>
    intro x dx step tr r h
    simp only [rootSimpleGo] at h
    split_ifs at h
    all_goals
      first
        | exact Except.noConfusion h
        | exact Nat.le_of_succ_le (ih _ _ _ _ _ h)
        | (cases h; exact Nat.le_refl _)

/-- C1 (amended): root_simple returns immediately, with zero steps and the
initial guess as root, exactly when |dx| ≤ |accuracy| or the function value
at the INITIAL guess is exactly zero.  The loop tests f0 = f(initial x),
which is never updated, so this — not the value at the current estimate —
is the termination condition. -/
theorem root_simple_stop_iff (f : ℚ → ℚ) (x dx acc : ℚ) (ms : ℕ) (dbg : Bool) :
    root_simple f x dx acc ms dbg =
      Except.ok ⟨x, if dbg then [(x, f x)] else [], 0⟩ ↔ (|dx| ≤ |acc| ∨ f x = 0) := by
  constructor
  · intro h
    by_contra hc
    push_neg at hc
    obtain ⟨h1, h2⟩ := hc
    simp only [root_simple, rootSimpleGo, if_pos (And.intro h1 h2)] at h
    split_ifs at h
    all_goals
      first
        | exact Except.noConfusion h
        | (have hle := rootSimpleGo_steps_le f acc (f x) ms dbg _ _ _ _ _ _ h
           simp at hle)
  · intro h
    have hg : ¬(|dx| > |acc| ∧ f x ≠ 0) := by
      rcases h with h | h
      · exact fun hc => absurd hc.1 (not_lt.mpr h)
      · exact fun hc => hc.2 h
    simp only [root_simple, rootSimpleGo, if_neg hg]

/-- C1 counterexample: with f(t) = -(t-1)^2, initial guess 0, step 1,
accuracy 1/2 and max_steps 3, the very first accepted step lands on the
point 1 where f evaluates to exactly 0 (the step is accepted: f0 * f(1) is
0, not negative, so it is not undone), yet the routine does not stop and
return that point — it keeps stepping past it and fails with the
max-steps error. -/
theorem root_simple_zero_mid_search_ignored :
    root_simple (fun t => -(t - 1) ^ 2) 0 1 (1 / 2) 3 true =
      Except.error RootErr.maxSteps ∧
    (fun t : ℚ => -(t - 1) ^ 2) (0 + 1) = 0 ∧
    (fun t : ℚ => -(t - 1) ^ 2) 0 ≠ 0 ∧
    ¬((fun t : ℚ => -(t - 1) ^ 2) 0 * (fun t : ℚ => -(t - 1) ^ 2) (0 + 1) < 0) ∧
    |(1 : ℚ)| > |(1 / 2 : ℚ)| := by
  refine ⟨?_, by norm_num, by norm_num, by norm_num, by norm_num [abs_of_nonneg]⟩
  norm_num [root_simple, rootSimpleGo, abs_of_nonneg]

/-- Loop of rootfinding.py root_bisection (lines 163-182).  State: the two
bounds with their cached function values, the current midpoint with its
value, the bracket width dx, the step counter, the trace, and the ghost
list of points where f has been evaluated so far.  The loop condition
compares |dx| against accuracy itself (not its absolute value), as in the
source. -/
def rootBisectGo (f : ℚ → ℚ) (acc : ℚ) (ms : ℕ) (dbg : Bool) :
    ℕ → ℚ → ℚ → ℚ → ℚ → ℚ → ℚ → ℚ → ℕ → List (ℚ × ℚ) → List ℚ →
    Except RootErr RootResult × List ℚ
  | 0, _, _, _, _, _, _, _, _, _, evs => (Except.error RootErr.maxSteps, evs)
  | fuel + 1, x1, f1, x2, f2, xmid, fmid, dx, step, tr, evs =>
    if |dx| > acc then
      if fmid = 0 then
        if step + 1 > ms then (Except.error RootErr.maxSteps, evs)
        else rootBisectGo f acc ms dbg fuel x1 f1 x2 f2 xmid fmid 0 (step + 1)
          (if dbg then tr ++ [(xmid, fmid)] else tr) evs
      else
        if f1 * fmid > 0 then
          if step + 1 > ms then (Except.error RootErr.maxSteps, evs ++ [(xmid + x2) / 2])
          else rootBisectGo f acc ms dbg fuel xmid fmid x2 f2 ((xmid + x2) / 2)
            (f ((xmid + x2) / 2)) (x2 - xmid) (step + 1)
            (if dbg then tr ++ [((xmid + x2) / 2, f ((xmid + x2) / 2))] else tr)
            (evs ++ [(xmid + x2) / 2])
        else
          if step + 1 > ms then (Except.error RootErr.maxSteps, evs ++ [(x1 + xmid) / 2])
          else rootBisectGo f acc ms dbg fuel x1 f1 xmid fmid ((x1 + xmid) / 2)
            (f ((x1 + xmid) / 2)) (xmid - x1) (step + 1)
            (if dbg then tr ++ [((x1 + xmid) / 2, f ((x1 + xmid) / 2))] else tr)
            (evs ++ [(x1 + xmid) / 2])
    else (Except.ok ⟨xmid, tr, step⟩, evs)

/-- Embedding of rootfinding.py root_bisection (lines 117-183).  Besides
the result it returns the ghost list of points at which f was evaluated,
in source order: the two endpoints, then (if the bracket is valid) the
successive midpoints. -/
def root_bisection (f : ℚ → ℚ) (x1 x2 acc : ℚ) (ms : ℕ) (dbg : Bool) :
    Except RootErr RootResult × List ℚ :=
  if f x1 * f x2 > 0 then (Except.error RootErr.invalidBracket, [x1, x2])
  else
    rootBisectGo f acc ms dbg (ms + 1) x1 (f x1) x2 (f x2) ((x1 + x2) / 2)
      (f ((x1 + x2) / 2)) (x2 - x1) 0
      (if dbg then [((x1 + x2) / 2, f ((x1 + x2) / 2))] else [])
      [x1, x2, (x1 + x2) / 2]

/-- C5: when f(x1) and f(x2) have the same strict sign, root_bisection
fails with the invalid-bracket error, and the ghost evaluation list is
exactly [x1, x2]: the two endpoint checks and nothing else — no midpoint
evaluation and no state-advancing work happen on this path. -/
theorem root_bisection_invalid_bracket (f : ℚ → ℚ) (x1 x2 acc : ℚ) (ms : ℕ)
    (dbg : Bool) (h : f x1 * f x2 > 0) :
    root_bisection f x1 x2 acc ms dbg =
      (Except.error RootErr.invalidBracket, [x1, x2]) := by
  simp [root_bisection, if_pos h]

/-- C5 witness: a concrete same-sign invocation. -/
theorem root_bisection_invalid_bracket_witness :
    root_bisection (fun t => t) 1 2 (1 / 1000000) 1000 false =
      (Except.error RootErr.invalidBracket, [1, 2]) :=
  root_bisection_invalid_bracket (fun t => t) 1 2 (1 / 1000000) 1000 false (by norm_num)

/-- Helper: whatever the sign bookkeeping, every success of the bisection
loop returns a root lying in [lo, hi] whenever the current bounds (and
hence the current midpoint) lie in [lo, hi]. -/
theorem rootBisectGo_root_mem (f : ℚ → ℚ) (acc : ℚ) (ms : ℕ) (dbg : Bool) (lo hi : ℚ) :
    ∀ (fuel : ℕ) (x1 f1 x2 f2 xmid fmid dx : ℚ) (step : ℕ) (tr : List (ℚ × ℚ))
      (evs : List ℚ) (r : RootResult),
      lo ≤ x1 → x1 ≤ hi → lo ≤ x2 → x2 ≤ hi → xmid = (x1 + x2) / 2 →
      (rootBisectGo f acc ms dbg fuel x1 f1 x2 f2 xmid fmid dx step tr evs).1 =
        Except.ok r →
      lo ≤ r.root ∧ r.root ≤ hi := by
  intro fuel
  induction fuel with
  | zero =>
    intro x1 f1 x2 f2 xmid fmid dx step tr evs r _ _ _ _ _ h
    exact Except.noConfusion h
  | succ fuel ih =>
    intro x1 f1 x2 f2 xmid fmid dx step tr evs r h1 h2 h3 h4 hm h
    have hmlo : lo ≤ (x1 + x2) / 2 := by linarith
    have hmhi : (x1 + x2) / 2 ≤ hi := by linarith
    simp only [rootBisectGo] at h
    split_ifs at h
    all_goals
      first
        | exact Except.noConfusion h
        | exact ih _ _ _ _ _ _ _ _ _ _ _ h1 h2 h3 h4 hm h
        | exact ih _ _ _ _ _ _ _ _ _ _ _ (hm ▸ hmlo) (hm ▸ hmhi) h3 h4 rfl h
        | exact ih _ _ _ _ _ _ _ _ _ _ _ h1 h2 (hm ▸ hmlo) (hm ▸ hmhi) rfl h
        | (cases h; exact ⟨hm ▸ hmlo, hm ▸ hmhi⟩)

/-- C9: if the initial endpoints bracket a sign change (f(x1)·f(x2) ≤ 0),
the midpoint returned by a successful root_bisection lies within the
caller's initial bracket [min x1 x2, max x1 x2]; moreover each loop
iteration preserves the bracket condition: when the midpoint m replaces
whichever bound shares its function-value sign, the surviving endpoint
pair again satisfies the product-≤-0 condition. -/
theorem root_bisection_bracket (f : ℚ → ℚ) (x1 x2 acc : ℚ) (ms : ℕ) (dbg : Bool)
    (h : f x1 * f x2 ≤ 0) :
    (∀ r : RootResult, (root_bisection f x1 x2 acc ms dbg).1 = Except.ok r →
        min x1 x2 ≤ r.root ∧ r.root ≤ max x1 x2) ∧
    (∀ u v m : ℚ, f u * f v ≤ 0 →
        (if f u * f m > 0 then f m * f v else f u * f m) ≤ 0) := by
  constructor
  · intro r hr
    have hb : ¬(f x1 * f x2 > 0) := not_lt.mpr h
    simp only [root_bisection, if_neg hb] at hr
    exact rootBisectGo_root_mem f acc ms dbg (min x1 x2) (max x1 x2) _ _ _ _ _ _ _ _ _ _ _ _
      (min_le_left _ _) (le_max_left _ _) (min_le_right _ _) (le_max_right _ _) rfl hr
  · intro u v m huv
    by_cases hc : f u * f m > 0
    · rw [if_pos hc]
      rcases lt_trichotomy (f u) 0 with hu | hu | hu
      · have hm : f m < 0 := by
          by_contra hm
          push_neg at hm
          exact absurd (mul_nonpos_of_nonpos_of_nonneg (le_of_lt hu) hm) (not_le.mpr hc)
        have hv : 0 ≤ f v := by
          by_contra hv
          push_neg at hv
          exact absurd (mul_pos_of_neg_of_neg hu hv) (not_lt.mpr huv)
        exact mul_nonpos_of_nonpos_of_nonneg (le_of_lt hm) hv
      · rw [hu] at hc
        simp at hc
      · have hm : 0 < f m := by
          by_contra hm
          push_neg at hm
          exact absurd (mul_nonpos_of_nonneg_of_nonpos (le_of_lt hu) hm) (not_le.mpr hc)
        have hv : f v ≤ 0 := by
          by_contra hv
          push_neg at hv
          exact absurd (mul_pos hu hv) (not_lt.mpr huv)
        exact mul_nonpos_of_nonneg_of_nonpos (le_of_lt hm) hv
    · rw [if_neg hc]
      exact not_lt.mp hc

set_option maxRecDepth 8000 in
/-- C9 witness: for f(t) = t² - 4 on the bracket [0, 3] with accuracy 2
and max_steps 1 the routine succeeds with root 9/4 after 1 step, and 9/4
indeed lies in the initial bracket. -/
theorem root_bisection_bracket_witness :
    (min (0 : ℚ) 3 ≤ (9 : ℚ) / 4 ∧ (9 : ℚ) / 4 ≤ max (0 : ℚ) 3) ∧
    (root_bisection (fun t => t * t - 4) 0 3 2 1 false).1 =
      Except.ok ⟨9 / 4, [], 1⟩ := by
  have hrun : (root_bisection (fun t => t * t - 4) 0 3 2 1 false).1 =
      Except.ok ⟨9 / 4, [], 1⟩ := by
    norm_num [root_bisection, rootBisectGo, abs_of_nonneg]
  exact ⟨(root_bisection_bracket (fun t => t * t - 4) 0 3 2 1 false
    (by norm_num)).1 ⟨9 / 4, [], 1⟩ hrun, hrun⟩

/-- Loop of rootfinding.py root_secant (lines 228-244).  State: previous
estimate x0 with its cached value f0, current estimate x1, step dx, the
step counter and the returned num_steps counter (incremented together, as
in the source), the trace, and the ghost list of f-evaluation points.
The source evaluates f1 = f(x1) once per iteration; f is pure, so the
embedding writes f x1 at each use site. -/
def rootSecantGo (f : ℚ → ℚ) (acc : ℚ) (ms : ℕ) (dbg : Bool) :
    ℕ → ℚ → ℚ → ℚ → ℚ → ℕ → ℕ → List (ℚ × ℚ) → List ℚ →
    Except RootErr RootResult × List ℚ
  | 0, _, _, _, _, _, _, _, evs => (Except.error RootErr.maxSteps, evs)
  | fuel + 1, x0, f0, x1, dx, step, numSteps, tr, evs =>
    if |dx| > |acc| then
      if f x1 = 0 then (Except.ok ⟨x1, tr, numSteps⟩, evs ++ [x1])
      else if f x1 = f0 then (Except.error RootErr.horizontalSecant, evs ++ [x1])
      else
        if step + 1 > ms then (Except.error RootErr.maxSteps, evs ++ [x1])
        else rootSecantGo f acc ms dbg fuel x1 (f x1)
          (x1 + dx * (-(f x1) / (f x1 - f0))) (dx * (-(f x1) / (f x1 - f0)))
          (step + 1) (numSteps + 1)
          (if dbg then tr ++ [(x1 + dx * (-(f x1) / (f x1 - f0)), f x1)] else tr)
          (evs ++ [x1])
    else (Except.ok ⟨x1, tr, numSteps⟩, evs)

/-- Embedding of rootfinding.py root_secant (lines 185-245), with the
ghost list of points at which f was evaluated, in source order. -/
def root_secant (f : ℚ → ℚ) (x0 x1 acc : ℚ) (ms : ℕ) (dbg : Bool) :
    Except RootErr RootResult × List ℚ :=
  if f x0 = 0 then (Except.ok ⟨x0, if dbg then [(x0, f x0)] else [], 0⟩, [x0])
  else rootSecantGo f acc ms dbg (ms + 1) x0 (f x0) x1 (x1 - x0) 0 0
    (if dbg then [(x0, f x0)] else []) [x0]

/-- Helper: the secant loop maintains the invariants f0 = f(x0) and
dx = x1 - x0; if it raises the horizontal-secant error, the raise happens
at an iteration whose two most recent estimates are the distinct points
x0 and x1 (distinct because the guard forces |dx| > |acc| ≥ 0) carrying
exactly equal, nonzero function values. -/
theorem rootSecantGo_horizontal_source (f : ℚ → ℚ) (acc : ℚ) (ms : ℕ) (dbg : Bool) :
    ∀ (fuel : ℕ) (x0 f0 x1 dx : ℚ) (step ns : ℕ) (tr : List (ℚ × ℚ)) (evs : List ℚ),
      f0 = f x0 →
      dx = x1 - x0 →
      (rootSecantGo f acc ms dbg fuel x0 f0 x1 dx step ns tr evs).1 =
        Except.error RootErr.horizontalSecant →
      ∃ u v : ℚ, u ≠ v ∧ f v = f u ∧ f v ≠ 0 := by
  intro fuel
  induction fuel with
  | zero =>
    intro x0 f0 x1 dx step ns tr evs hf hdx h
    simp [rootSecantGo] at h
  | succ fuel ih =>
    intro x0 f0 x1 dx step ns tr evs hf hdx h
    simp only [rootSecantGo] at h
    split_ifs at h
    all_goals
      first
        | exact ih _ _ _ _ _ _ _ _ rfl (by ring) h
        | (rename_i hg hne heq
           have hdx0 : dx ≠ 0 := abs_pos.mp (lt_of_le_of_lt (abs_nonneg acc) hg)
           exact ⟨x0, x1, fun hxy => hdx0 (by rw [hdx, hxy, sub_self]),
             heq.trans hf, hne⟩)
        | simp at h

/-- C6: the horizontal-secant error is raised exactly by the equal-and-
nonzero configuration.  Conjuncts: (1) an iteration whose two most recent
function values are exactly equal and nonzero raises the horizontal-secant
error at once; (2) an iteration finding f(x1) exactly zero instead returns
x1 immediately; (3) an invocation whose first guess already evaluates to
zero returns it immediately with zero steps; (4) conversely, whenever an
invocation fails with the horizontal-secant error, f takes the same
nonzero value at two DISTINCT points: the two most recent estimates at
the failing iteration, which the loop guard keeps a nonzero distance
apart. -/
theorem root_secant_horizontal_iff (f : ℚ → ℚ) (acc : ℚ) (ms : ℕ) (dbg : Bool) :
    (∀ (fuel : ℕ) (x0 f0 x1 dx : ℚ) (step ns : ℕ) (tr : List (ℚ × ℚ)) (evs : List ℚ),
        |dx| > |acc| → f x1 = f0 → f x1 ≠ 0 →
        (rootSecantGo f acc ms dbg (fuel + 1) x0 f0 x1 dx step ns tr evs).1 =
          Except.error RootErr.horizontalSecant) ∧
    (∀ (fuel : ℕ) (x0 f0 x1 dx : ℚ) (step ns : ℕ) (tr : List (ℚ × ℚ)) (evs : List ℚ),
        |dx| > |acc| → f x1 = 0 →
        (rootSecantGo f acc ms dbg (fuel + 1) x0 f0 x1 dx step ns tr evs).1 =
          Except.ok ⟨x1, tr, ns⟩) ∧
    (∀ x0 x1 : ℚ, f x0 = 0 →
        (root_secant f x0 x1 acc ms dbg).1 =
          Except.ok ⟨x0, if dbg then [(x0, f x0)] else [], 0⟩) ∧
    (∀ x0 x1 : ℚ,
        (root_secant f x0 x1 acc ms dbg).1 = Except.error RootErr.horizontalSecant →
        ∃ u v : ℚ, u ≠ v ∧ f v = f u ∧ f v ≠ 0) := by
  refine ⟨?_, ?_, ?_, ?_⟩
  · intro fuel x0 f0 x1 dx step ns tr evs h1 h2 h3
    simp only [rootSecantGo, if_pos h1, if_neg h3, if_pos h2]
  · intro fuel x0 f0 x1 dx step ns tr evs h1 h2
    simp only [rootSecantGo, if_pos h1, if_pos h2]
  · intro x0 x1 h
    simp only [root_secant, if_pos h]
  · intro x0 x1 h
    by_cases hf : f x0 = 0
    · simp only [root_secant, if_pos hf] at h
      exact Except.noConfusion h
    · simp only [root_secant, if_neg hf] at h
      exact rootSecantGo_horizontal_source f acc ms dbg _ _ _ _ _ _ _ _ _ rfl rfl h

/-- C6 witness: concrete instances of all four conjuncts.  The first three
use f(t) = t; the last uses the constant function 2, on which the secant
search from guesses 0 and 5 really does fail with the horizontal-secant
error on its first iteration, yielding two distinct points with the same
nonzero value. -/
theorem root_secant_horizontal_iff_witness :
    (rootSecantGo (fun t => t) 1 2 false 3 0 2 2 7 0 0 [] []).1 =
      Except.error RootErr.horizontalSecant ∧
    (rootSecantGo (fun t => t) 1 2 false 3 5 2 0 7 0 4 [] []).1 =
      Except.ok ⟨0, [], 4⟩ ∧
    (root_secant (fun t => t) 0 9 1 2 false).1 =
      Except.ok ⟨0, if false then [(0, (fun t : ℚ => t) 0)] else [], 0⟩ ∧
    (∃ u v : ℚ, u ≠ v ∧ (fun _ : ℚ => (2 : ℚ)) v = (fun _ : ℚ => (2 : ℚ)) u ∧
      (fun _ : ℚ => (2 : ℚ)) v ≠ 0) := by
  have h1 := root_secant_horizontal_iff (fun t => t) 1 2 false
  refine ⟨h1.1 2 0 2 2 7 0 0 [] [] (by norm_num [abs_of_nonneg]) (by norm_num) (by norm_num),
    h1.2.1 2 5 2 0 7 0 4 [] [] (by norm_num [abs_of_nonneg]) (by norm_num),
    h1.2.2.1 0 9 (by norm_num),
    (root_secant_horizontal_iff (fun _ : ℚ => 2) 1 2 false).2.2.2 0 5
      (by norm_num [root_secant, rootSecantGo, abs_of_nonneg])⟩

/-- C10 (amended): when the two initial guesses are distinct but within
accuracy of each other and f(x0) is nonzero, root_secant returns x1 with a
step count of 0, and the ghost evaluation list is exactly [x0]: f is never
evaluated at x1, so the returned estimate's function value is never
checked. -/
theorem root_secant_zero_iteration (f : ℚ → ℚ) (x0 x1 acc : ℚ) (ms : ℕ) (dbg : Bool)
    (hacc : 0 < acc) (hclose : |x1 - x0| ≤ acc) (hf : f x0 ≠ 0) (hne : x1 ≠ x0) :
    root_secant f x0 x1 acc ms dbg =
      (Except.ok ⟨x1, if dbg then [(x0, f x0)] else [], 0⟩, [x0]) ∧
    x1 ∉ ([x0] : List ℚ) := by
  constructor
  · have hg : ¬(|x1 - x0| > |acc|) := by
      rw [abs_of_pos hacc]
      exact not_lt.mpr hclose
    simp only [root_secant, if_neg hf, rootSecantGo, if_neg hg]
  · simp [hne]

/-- C10 witness: f(t) = t + 1, guesses 0 and 1/2, accuracy 1. -/
theorem root_secant_zero_iteration_witness :
    root_secant (fun t => t + 1) 0 (1 / 2) 1 20 false =
      (Except.ok ⟨1 / 2, if false then [(0, (fun t : ℚ => t + 1) 0)] else [], 0⟩, [0]) ∧
    (1 / 2 : ℚ) ∉ ([0] : List ℚ) :=
  root_secant_zero_iteration (fun t => t + 1) 0 (1 / 2) 1 20 false
    (by norm_num) (by norm_num [abs_of_nonneg]) (by norm_num) (by norm_num)

/-- C10 counterexample: with coincident guesses x0 = x1 = 0, accuracy 1
and f the constant function 1, the claim's hypotheses hold (|x1 - x0| ≤
accuracy and f(x0) ≠ 0), the routine returns x1 with 0 steps — but f IS
evaluated at x1, because evaluating f(x0) is evaluating it at the same
point: x1 appears in the ghost evaluation list. -/
theorem root_secant_coincident_guesses :
    root_secant (fun _ : ℚ => 1) 0 0 1 2 false =
      (Except.ok ⟨0, [], 0⟩, [0]) ∧
    (0 : ℚ) ∈ ([0] : List ℚ) ∧ |(0 : ℚ) - 0| ≤ 1 ∧
    (fun _ : ℚ => (1 : ℚ)) 0 ≠ 0 := by
  refine ⟨?_, by simp, by norm_num, by norm_num⟩
  norm_num [root_secant, rootSecantGo, abs_of_nonneg]

/-- Loop of rootfinding.py root_tangent (lines 296-311).  Each pass
re-evaluates the derivative at the current estimate, fails if it is zero,
takes the Newton step, and returns as soon as the step is within accuracy
or the new function value is exactly zero; only if it keeps going are the
counters incremented and the trace extended. -/
def rootTangentGo (f fp : ℚ → ℚ) (acc : ℚ) (ms : ℕ) (dbg : Bool) :
    ℕ → ℚ → ℚ → ℕ → ℕ → List (ℚ × ℚ) → Except RootErr RootResult
  | 0, _, _, _, _, _ => Except.error RootErr.maxSteps
  | fuel + 1, x0, f0, step, numSteps, tr =>
    if fp x0 = 0 then Except.error RootErr.zeroDeriv
    else
      if |(-f0 / fp x0)| ≤ acc ∨ f (x0 + -f0 / fp x0) = 0 then
        Except.ok ⟨x0 + -f0 / fp x0, tr, numSteps⟩
      else
        if step + 1 > ms then Except.error RootErr.maxSteps
        else rootTangentGo f fp acc ms dbg fuel (x0 + -f0 / fp x0)
          (f (x0 + -f0 / fp x0)) (step + 1) (numSteps + 1)
          (if dbg then tr ++ [(x0 + -f0 / fp x0, f (x0 + -f0 / fp x0))] else tr)

/-- Embedding of rootfinding.py root_tangent (lines 247-312): the initial
derivative check, the immediate return when f(x0) is exactly zero, then
the Newton loop. -/
def root_tangent (f fp : ℚ → ℚ) (x0 acc : ℚ) (ms : ℕ) (dbg : Bool) :
    Except RootErr RootResult :=
  if fp x0 = 0 then Except.error RootErr.zeroDeriv
  else if f x0 = 0 then Except.ok ⟨x0, if dbg then [(x0, f x0)] else [], 0⟩
  else rootTangentGo f fp acc ms dbg (ms + 1) x0 (f x0) 0 0
    (if dbg then [(x0, f x0)] else [])

/-- Inductive values standing for the possible Python return values of
calculus.py root_secant (lines 210-248): a bare scalar on the two early
exits, a (value, trace) pair — with no step count — on normal exit. -/
inductive PyRet where
  | scalar (x : ℚ)
  | pair (x : ℚ) (tr : List (ℚ × ℚ))
deriving DecidableEq, Repr

/-- Loop of calculus.py root_secant (lines 233-248): identical iteration
logic to the rootfinding.py version, but the early exit inside the loop
returns the bare scalar x1, and the normal exit returns the (x1, trace)
pair without any step count. -/
def rootSecantCalcGo (f : ℚ → ℚ) (acc : ℚ) (ms : ℕ) (dbg : Bool) :
    ℕ → ℚ → ℚ → ℚ → ℚ → ℕ → List (ℚ × ℚ) → Except RootErr PyRet
  | 0, _, _, _, _, _, _ => Except.error RootErr.maxSteps
  | fuel + 1, x0, f0, x1, dx, step, tr =>
    if |dx| > |acc| then
      if f x1 = 0 then Except.ok (PyRet.scalar x1)
      else if f x1 = f0 then Except.error RootErr.horizontalSecant
      else
        if step + 1 > ms then Except.error RootErr.maxSteps
        else rootSecantCalcGo f acc ms dbg fuel x1 (f x1)
          (x1 + dx * (-(f x1) / (f x1 - f0))) (dx * (-(f x1) / (f x1 - f0))) (step + 1)
          (if dbg then tr ++ [(x1 + dx * (-(f x1) / (f x1 - f0)), f x1)] else tr)
    else Except.ok (PyRet.pair x1 tr)

/-- Embedding of calculus.py root_secant (lines 210-248), whose return
paths do not share one shape: bare x0 when f(x0) = 0 (line 232), bare x1
when f(x1) = 0 (line 236), a two-component pair otherwise (line 248). -/
def root_secant_calc (f : ℚ → ℚ) (x0 x1 acc : ℚ) (ms : ℕ) (dbg : Bool) :
    Except RootErr PyRet :=
  if f x0 = 0 then Except.ok (PyRet.scalar x0)
  else rootSecantCalcGo f acc ms dbg (ms + 1) x0 (f x0) x1 (x1 - x0) 0
    (if dbg then [(x0, f x0)] else [])

/-- C4 (code bug): on f(t) = t with guesses 0 and 1, calculus.py's
root_secant returns the bare scalar 0 — a single value, not the
three-component (root, trace, steps) result the specification prescribes
and its own docstring ("Returns tuple") promises — while the
rootfinding.py version returns the full three-component result on the
same input. -/
theorem root_secant_calc_return_shape :
    root_secant_calc (fun t => t) 0 1 (1 / 1000000) 20 false =
      Except.ok (PyRet.scalar 0) ∧
    (root_secant (fun t => t) 0 1 (1 / 1000000) 20 false).1 =
      Except.ok ⟨0, [], 0⟩ := by
  constructor
  · norm_num [root_secant_calc]
  · norm_num [root_secant]

/-- Helper: in debug mode the simple-search loop keeps the trace one entry
longer than the step counter. -/
theorem rootSimpleGo_trace (f : ℚ → ℚ) (acc f0 : ℚ) (ms : ℕ) :
    ∀ (fuel : ℕ) (x dx : ℚ) (step : ℕ) (tr : List (ℚ × ℚ)),
      tr.length = step + 1 →
      traceLenOk (rootSimpleGo f acc f0 ms true fuel x dx step tr) := by
  intro fuel
  induction fuel with
  | zero => intro x dx step tr h; simp [rootSimpleGo, traceLenOk]
  | succ fuel ih =>
    intro x dx step tr h
    simp only [rootSimpleGo]
    split_ifs
    all_goals
      first
        | exact ih _ _ _ _ (by simp [h])
        | exact h
        | exact trivial

/-- Helper: in debug mode the bisection loop keeps the trace one entry
longer than the step counter. -/
theorem rootBisectGo_trace (f : ℚ → ℚ) (acc : ℚ) (ms : ℕ) :
    ∀ (fuel : ℕ) (x1 f1 x2 f2 xmid fmid dx : ℚ) (step : ℕ) (tr : List (ℚ × ℚ))
      (evs : List ℚ),
      tr.length = step + 1 →
      traceLenOk (rootBisectGo f acc ms true fuel x1 f1 x2 f2 xmid fmid dx step tr evs).1 := by
  intro fuel
  induction fuel with
  | zero => intro x1 f1 x2 f2 xmid fmid dx step tr evs h; simp [rootBisectGo, traceLenOk]
  | succ fuel ih =>
    intro x1 f1 x2 f2 xmid fmid dx step tr evs h
    simp only [rootBisectGo]
    split_ifs
    all_goals
      first
        | exact ih _ _ _ _ _ _ _ _ _ _ (by simp [h])
        | exact h
        | exact trivial

/-- Helper: in debug mode the secant loop keeps the trace one entry longer
than the returned num_steps counter. -/
theorem rootSecantGo_trace (f : ℚ → ℚ) (acc : ℚ) (ms : ℕ) :
    ∀ (fuel : ℕ) (x0 f0 x1 dx : ℚ) (step ns : ℕ) (tr : List (ℚ × ℚ)) (evs : List ℚ),
      tr.length = ns + 1 →
      traceLenOk (rootSecantGo f acc ms true fuel x0 f0 x1 dx step ns tr evs).1 := by
  intro fuel
  induction fuel with
  | zero => intro x0 f0 x1 dx step ns tr evs h; simp [rootSecantGo, traceLenOk]
  | succ fuel ih =>
    intro x0 f0 x1 dx step ns tr evs h
    simp only [rootSecantGo]
    split_ifs
    all_goals
      first
        | exact ih _ _ _ _ _ _ _ _ (by simp [h])
        | exact h
        | exact trivial

/-- Helper: in debug mode the Newton loop keeps the trace one entry longer
than the returned num_steps counter. -/
theorem rootTangentGo_trace (f fp : ℚ → ℚ) (acc : ℚ) (ms : ℕ) :
    ∀ (fuel : ℕ) (x0 f0 : ℚ) (step ns : ℕ) (tr : List (ℚ × ℚ)),
      tr.length = ns + 1 →
      traceLenOk (rootTangentGo f fp acc ms true fuel x0 f0 step ns tr) := by
  intro fuel
  induction fuel with
  | zero => intro x0 f0 step ns tr h; simp [rootTangentGo, traceLenOk]
  | succ fuel ih =>
    intro x0 f0 step ns tr h
    simp only [rootTangentGo]
    split_ifs
    all_goals
      first
        | exact ih _ _ _ _ _ (by simp [h])
        | exact h
        | exact trivial

/-- C2 (amended): for every routine and every invocation run with debug
tracing enabled, a successful result's step count equals the number of
trace entries beyond the initial-guess entry (trace length = steps + 1).
For root_tangent this counts what the source counts: the final iteration
that satisfies the stopping test is neither counted nor traced. -/
theorem steps_eq_trace_entries (f fp : ℚ → ℚ) (x dx x1 x2 acc : ℚ) (ms : ℕ) :
    traceLenOk (root_simple f x dx acc ms true) ∧
    traceLenOk (root_bisection f x1 x2 acc ms true).1 ∧
    traceLenOk (root_secant f x1 x2 acc ms true).1 ∧
    traceLenOk (root_tangent f fp x acc ms true) := by
  refine ⟨?_, ?_, ?_, ?_⟩
  · exact rootSimpleGo_trace f acc (f x) ms _ _ _ _ _ (by simp)
  · rw [root_bisection]
    by_cases h : f x1 * f x2 > 0
    · rw [if_pos h]; exact trivial
    · rw [if_neg h]
      exact rootBisectGo_trace f acc ms _ _ _ _ _ _ _ _ _ _ _ (by simp)
  · rw [root_secant]
    by_cases h : f x1 = 0
    · rw [if_pos h]; simp [traceLenOk]
    · rw [if_neg h]
      exact rootSecantGo_trace f acc ms _ _ _ _ _ _ _ _ _ (by simp)
  · rw [root_tangent]
    by_cases h1 : fp x = 0
    · rw [if_pos h1]; exact trivial
    · rw [if_neg h1]
      by_cases h2 : f x = 0
      · rw [if_pos h2]; simp [traceLenOk]
      · rw [if_neg h2]
        exact rootTangentGo_trace f fp acc ms _ _ _ _ _ _ (by simp)

/-- C2 counterexample: Newton's method on f(t) = t, derivative constantly
1, initial guess 5, accuracy 10.  The routine performs one full Newton
iteration — the returned estimate 0 differs from the initial guess 5, and
the zero-iteration early-return path is not taken since f(5) = 5 ≠ 0 —
yet it reports a step count of 0, not 1: the iteration that triggers the
convergent return is never counted. -/
theorem root_tangent_uncounted_final_iteration :
    root_tangent (fun t => t) (fun _ => 1) 5 10 3 false = Except.ok ⟨0, [], 0⟩ ∧
    (fun t : ℚ => t) 5 ≠ 0 ∧ (0 : ℚ) ≠ 5 := by
  refine ⟨?_, by norm_num, by norm_num⟩
  norm_num [root_tangent, rootTangentGo, abs_of_nonpos]

/-- Observable part of an instrumented result: the result signature of the
first component together with the ghost evaluation list. -/
def pairSig (p : Except RootErr RootResult × List ℚ) :
    Except RootErr (ℚ × ℕ) × List ℚ :=
  (resultSig p.1, p.2)

/-- Helper: the simple-search loop's observable outcome ignores the debug
flag and the trace accumulator. -/
theorem rootSimpleGo_sig (f : ℚ → ℚ) (acc f0 : ℚ) (ms : ℕ) :
    ∀ (fuel : ℕ) (d : Bool) (x dx : ℚ) (step : ℕ) (tr : List (ℚ × ℚ)),
      resultSig (rootSimpleGo f acc f0 ms d fuel x dx step tr) =
      resultSig (rootSimpleGo f acc f0 ms false fuel x dx step []) := by
  intro fuel
  induction fuel with
  | zero => intro d x dx step tr; rfl
  | succ fuel ih =>
    intro d x dx step tr
    simp only [rootSimpleGo]
    split_ifs
    all_goals first | rfl | contradiction | rw [ih, ih]

/-- Helper: the bisection loop's observable outcome and evaluation list
ignore the debug flag and the trace accumulator. -/
theorem rootBisectGo_sig (f : ℚ → ℚ) (acc : ℚ) (ms : ℕ) :
    ∀ (fuel : ℕ) (d : Bool) (x1 f1 x2 f2 xmid fmid dx : ℚ) (step : ℕ)
      (tr : List (ℚ × ℚ)) (evs : List ℚ),
      pairSig (rootBisectGo f acc ms d fuel x1 f1 x2 f2 xmid fmid dx step tr evs) =
      pairSig (rootBisectGo f acc ms false fuel x1 f1 x2 f2 xmid fmid dx step [] evs) := by
  intro fuel
  induction fuel with
  | zero => intro d x1 f1 x2 f2 xmid fmid dx step tr evs; rfl
  | succ fuel ih =>
    intro d x1 f1 x2 f2 xmid fmid dx step tr evs
    simp only [rootBisectGo]
    split_ifs
    all_goals first | rfl | contradiction | rw [ih, ih]

/-- Helper: the secant loop's observable outcome and evaluation list
ignore the debug flag and the trace accumulator. -/
theorem rootSecantGo_sig (f : ℚ → ℚ) (acc : ℚ) (ms : ℕ) :
    ∀ (fuel : ℕ) (d : Bool) (x0 f0 x1 dx : ℚ) (step ns : ℕ) (tr : List (ℚ × ℚ))
      (evs : List ℚ),
      pairSig (rootSecantGo f acc ms d fuel x0 f0 x1 dx step ns tr evs) =
      pairSig (rootSecantGo f acc ms false fuel x0 f0 x1 dx step ns [] evs) := by
  intro fuel
  induction fuel with
  | zero => intro d x0 f0 x1 dx step ns tr evs; rfl
  | succ fuel ih =>
    intro d x0 f0 x1 dx step ns tr evs
    simp only [rootSecantGo]
    split_ifs
    all_goals first | rfl | contradiction | rw [ih, ih]

/-- Helper: the Newton loop's observable outcome ignores the debug flag
and the trace accumulator. -/
theorem rootTangentGo_sig (f fp : ℚ → ℚ) (acc : ℚ) (ms : ℕ) :
    ∀ (fuel : ℕ) (d : Bool) (x0 f0 : ℚ) (step ns : ℕ) (tr : List (ℚ × ℚ)),
      resultSig (rootTangentGo f fp acc ms d fuel x0 f0 step ns tr) =
      resultSig (rootTangentGo f fp acc ms false fuel x0 f0 step ns []) := by
  intro fuel
  induction fuel with
  | zero => intro d x0 f0 step ns tr; rfl
  | succ fuel ih =>
    intro d x0 f0 step ns tr
    simp only [rootTangentGo]
    split_ifs
    all_goals first | rfl | contradiction | rw [ih, ih]

/-- C8: for each routine and any fixed numerical arguments, runs with the
debug flag on and off have the same observable outcome — same root
estimate and step count on success, same error kind on failure, and (for
the instrumented routines) the same list of f-evaluation points.  The
debug flag and the trace it builds influence no control decision and no
numerical output. -/
theorem debug_flag_no_influence (f fp : ℚ → ℚ) (x dx x1 x2 acc : ℚ) (ms : ℕ)
    (d1 d2 : Bool) :
    resultSig (root_simple f x dx acc ms d1) = resultSig (root_simple f x dx acc ms d2) ∧
    pairSig (root_bisection f x1 x2 acc ms d1) = pairSig (root_bisection f x1 x2 acc ms d2) ∧
    pairSig (root_secant f x1 x2 acc ms d1) = pairSig (root_secant f x1 x2 acc ms d2) ∧
    resultSig (root_tangent f fp x acc ms d1) = resultSig (root_tangent f fp x acc ms d2) := by
  refine ⟨?_, ?_, ?_, ?_⟩
  · rw [root_simple, root_simple, rootSimpleGo_sig f acc (f x) ms (ms + 1) d1,
      rootSimpleGo_sig f acc (f x) ms (ms + 1) d2]
  · rw [root_bisection, root_bisection]
    by_cases h : f x1 * f x2 > 0
    · rw [if_pos h, if_pos h]
      try rfl
    · rw [if_neg h, if_neg h,
        rootBisectGo_sig f acc ms (ms + 1) d1, rootBisectGo_sig f acc ms (ms + 1) d2]
      try rfl
  · rw [root_secant, root_secant]
    by_cases h : f x1 = 0
    · rw [if_pos h, if_pos h]
      try rfl
    · rw [if_neg h, if_neg h,
        rootSecantGo_sig f acc ms (ms + 1) d1, rootSecantGo_sig f acc ms (ms + 1) d2]
      try rfl
  · rw [root_tangent, root_tangent]
    by_cases h1 : fp x = 0
    · rw [if_pos h1, if_pos h1]
      try rfl
    · rw [if_neg h1, if_neg h1]
      by_cases h2 : f x = 0
      · rw [if_pos h2, if_pos h2]
        try rfl
      · rw [if_neg h2, if_neg h2,
          rootTangentGo_sig f fp acc ms (ms + 1) d1, rootTangentGo_sig f fp acc ms (ms + 1) d2]
        try rfl

/-- Embedding of calculus_main.py trapezoid_rule (lines 1-22): composite
trapezoidal rule, h·(½(f(a)+f(b)) + Σ_{i=1}^{n-1} f(a+ih)).  For n = 0 the
Python code would raise a division error; over ℚ the division yields 0 and
the function is only ever used with n ≥ 1. -/
def trapezoid_rule (f : ℚ → ℚ) (a b : ℚ) (n : ℕ) : ℚ :=
  ((f a + f b) / 2 + ∑ i in Finset.Ico 1 n, f (a + (i : ℚ) * ((b - a) / (n : ℚ)))) *
    ((b - a) / (n : ℚ))

/-- Ghost list of the arguments trapezoid_rule passes to its integrand, in
source order: f(a), f(b), then f(a+ih) for i = 1..n-1. -/
def trapezoid_points (a b : ℚ) (n : ℕ) : List ℚ :=
  [a, b] ++ List.map (fun i : ℕ => a + (i : ℚ) * ((b - a) / (n : ℚ))) (List.range' 1 (n - 1))

/-- Loop of calculus_main.py adaptive_trapezoid_rule (lines 43-46): while
the estimate moved by more than epsilon, double n and recompute the full
trapezoid sum from scratch.  The Python loop has no iteration cap; the
embedding is fuel-indexed and returns none if the fuel runs out.  The
ghost list accumulates every argument passed to the integrand. -/
def adaptiveTrapGo (f : ℚ → ℚ) (a b eps : ℚ) :
    ℕ → ℕ → ℚ → ℚ → List ℚ → Option (ℚ × List ℚ)
  | 0, _, _, _, _ => none
  | fuel + 1, n, oldR, r, evs =>
    if |r - oldR| > eps then
      adaptiveTrapGo f a b eps fuel (2 * n) r (trapezoid_rule f a b (2 * n))
        (evs ++ trapezoid_points a b (2 * n))
    else some (r, evs)

/-- Embedding of calculus_main.py adaptive_trapezoid_rule (lines 25-48):
n starts at 1, old_result at 0, result at trapezoid_rule(f,a,b,1). -/
def adaptive_trapezoid_rule (f : ℚ → ℚ) (a b eps : ℚ) (fuel : ℕ) :
    Option (ℚ × List ℚ) :=
  adaptiveTrapGo f a b eps fuel 1 0 (trapezoid_rule f a b 1) (trapezoid_points a b 1)

/-- Helper: a successful adaptive run started at subinterval count n with
the current result being the trapezoid value at n returns the trapezoid
value at n·2^k for some k, and the stopping test held at the last
doubling. -/
theorem adaptiveTrapGo_some (f : ℚ → ℚ) (a b eps : ℚ) :
    ∀ (fuel n : ℕ) (oldR r : ℚ) (evs : List ℚ) (res : ℚ) (evr : List ℚ),
      r = trapezoid_rule f a b n →
      adaptiveTrapGo f a b eps fuel n oldR r evs = some (res, evr) →
      (res = trapezoid_rule f a b n ∧ |trapezoid_rule f a b n - oldR| ≤ eps) ∨
      ∃ k : ℕ, 1 ≤ k ∧ res = trapezoid_rule f a b (2 ^ k * n) ∧
        |trapezoid_rule f a b (2 ^ k * n) -
          trapezoid_rule f a b (2 ^ (k - 1) * n)| ≤ eps := by
  intro fuel
  induction fuel with
  | zero =>
    intro n oldR r evs res evr hr h
    simp [adaptiveTrapGo] at h
  | succ fuel ih =>
    intro n oldR r evs res evr hr h
    simp only [adaptiveTrapGo] at h
    split_ifs at h with hgt
    · rcases ih (2 * n) r (trapezoid_rule f a b (2 * n)) _ res evr rfl h with
        h' | ⟨k, hk, hres, hcl⟩
      · right
        refine ⟨1, le_refl 1, ?_, ?_⟩
        · simpa [pow_one] using h'.1
        · have := h'.2
          rw [hr] at this
          simpa [pow_one, pow_zero, one_mul] using this
      · right
        refine ⟨k + 1, by omega, ?_, ?_⟩
        · have e1 : 2 ^ k * (2 * n) = 2 ^ (k + 1) * n := by ring
          rwa [e1] at hres
        · have e1 : 2 ^ k * (2 * n) = 2 ^ (k + 1) * n := by ring
          have e2 : 2 ^ (k - 1) * (2 * n) = 2 ^ (k + 1 - 1) * n := by
            obtain ⟨k', rfl⟩ : ∃ k', k = k' + 1 := ⟨k - 1, by omega⟩
            simp only [Nat.add_sub_cancel]
            ring
          rwa [e1, e2] at hcl
    · cases h
      exact Or.inl ⟨hr, by rw [← hr]; exact not_lt.mp hgt⟩

/-- C3 (amended): a successful run of the adaptive trapezoid routine
returns the composite trapezoid value at a subinterval count 2^k reached
by repeated doubling from n = 1, stopping as soon as the estimate moves by
at most epsilon; and each refinement at subinterval count m evaluates the
integrand at all m + 1 sample points — a full recomputation, with no reuse
of previously computed sums. -/
theorem adaptive_trapezoid_structure (f : ℚ → ℚ) (a b eps : ℚ) (fuel : ℕ)
    (res : ℚ) (evr : List ℚ)
    (h : adaptive_trapezoid_rule f a b eps fuel = some (res, evr)) :
    ((res = trapezoid_rule f a b 1 ∧ |trapezoid_rule f a b 1 - 0| ≤ eps) ∨
      ∃ k : ℕ, 1 ≤ k ∧ res = trapezoid_rule f a b (2 ^ k) ∧
        |trapezoid_rule f a b (2 ^ k) - trapezoid_rule f a b (2 ^ (k - 1))| ≤ eps) ∧
    (∀ m : ℕ, 1 ≤ m → (trapezoid_points a b m).length = m + 1) := by
  constructor
  · have hx := adaptiveTrapGo_some f a b eps fuel 1 0 _ _ res evr rfl h
    simpa [mul_one] using hx
  · intro m hm
    rw [trapezoid_points, List.length_append, List.length_map, List.length_range']
    simp only [List.length_cons, List.length_nil]
    omega

/-- C3 witness: on the integrand t², bounds 0 and 1, epsilon 1/100, the
adaptive routine converges to 43/128 (the trapezoid value at n = 8 = 2³,
with the stopping test satisfied against the n = 4 value). -/
theorem adaptive_trapezoid_structure_witness :
    (((43 : ℚ) / 128 = trapezoid_rule (fun t => t * t) 0 1 1 ∧
        |trapezoid_rule (fun t => t * t) 0 1 1 - 0| ≤ 1 / 100) ∨
      ∃ k : ℕ, 1 ≤ k ∧ (43 : ℚ) / 128 = trapezoid_rule (fun t => t * t) 0 1 (2 ^ k) ∧
        |trapezoid_rule (fun t => t * t) 0 1 (2 ^ k) -
          trapezoid_rule (fun t => t * t) 0 1 (2 ^ (k - 1))| ≤ 1 / 100) ∧
    (∀ m : ℕ, 1 ≤ m → (trapezoid_points (0 : ℚ) 1 m).length = m + 1) :=
  adaptive_trapezoid_structure (fun t => t * t) 0 1 (1 / 100) 5 (43 / 128)
    (trapezoid_points 0 1 1 ++ (trapezoid_points 0 1 2 ++
      (trapezoid_points 0 1 4 ++ trapezoid_points 0 1 8)))
    (by norm_num [adaptive_trapezoid_rule, adaptiveTrapGo, trapezoid_rule,
      Finset.sum_Ico_eq_sum_range, Finset.sum_range_succ, abs_of_nonneg,
      abs_of_nonpos, List.append_assoc])

/-- C3 counterexample: on the run with integrand t², bounds 0, 1 and
epsilon 1/100, the evaluation list is the concatenation of the FULL
trapezoid sample lists for n = 1, 2, 4, 8.  The left endpoint 0 is not a
newly inserted midpoint of any refinement, yet the final refinement
evaluates the integrand at 0 again — its evaluation list contains 0 and
has all 9 sample points, though only 4 midpoints are new at n = 8.  So
refinements recompute the full sum instead of reusing previous sums and
evaluating only the new midpoints. -/
theorem adaptive_trapezoid_recomputes :
    adaptive_trapezoid_rule (fun t => t * t) 0 1 (1 / 100) 5 =
      some (43 / 128,
        trapezoid_points 0 1 1 ++ (trapezoid_points 0 1 2 ++
          (trapezoid_points 0 1 4 ++ trapezoid_points 0 1 8))) ∧
    (0 : ℚ) ∈ trapezoid_points 0 1 8 ∧
    (trapezoid_points 0 1 8).length = 9 := by
  refine ⟨?_, by simp [trapezoid_points], by norm_num [trapezoid_points, List.range']⟩
  norm_num [adaptive_trapezoid_rule, adaptiveTrapGo, trapezoid_rule,
    Finset.sum_Ico_eq_sum_range, Finset.sum_range_succ, abs_of_nonneg,
    abs_of_nonpos, List.append_assoc]

/-- Embedding of calculus_main.py simpsons_rule (lines 51-75): composite
Simpson rule.  The Python index ranges range(1, n, 2) and range(2, n-1, 2)
are encoded as j < n / 2 with index 2j + 1 and j < (n - 2) / 2 with index
2j + 2 (natural-number division), which enumerate exactly the same index
sets for every n. -/
def simpsons_rule (f : ℚ → ℚ) (a b : ℚ) (n : ℕ) : ℚ :=
  (f a + f b
    + 4 * ∑ i in Finset.range (n / 2), f (a + (2 * (i : ℚ) + 1) * ((b - a) / (n : ℚ)))
    + 2 * ∑ i in Finset.range ((n - 2) / 2), f (a + (2 * (i : ℚ) + 2) * ((b - a) / (n : ℚ))))
    * ((b - a) / (n : ℚ) / 3)

/-- Antiderivative of the general cubic c0 + c1 t + c2 t² + c3 t³; the true
definite integral on [a, b] is its difference of values at b and a. -/
def cubicPrim (c0 c1 c2 c3 : ℚ) : ℚ → ℚ :=
  fun t => c0 * t + c1 * t ^ 2 / 2 + c2 * t ^ 3 / 3 + c3 * t ^ 4 / 4

/-- Helper: for n = 2(m'+1) panels of width H with a + (2m'+2)H = b, the
composite Simpson weighted sum regroups as a sum of simple three-point
Simpson panels. -/
theorem simpsons_sum_form (f : ℚ → ℚ) (a b H : ℚ) (m' : ℕ)
    (hb : a + (2 * (m' : ℚ) + 2) * H = b) :
    (f a + f b + 4 * ∑ i in Finset.range (m' + 1), f (a + (2 * (i : ℚ) + 1) * H)
      + 2 * ∑ i in Finset.range m', f (a + (2 * (i : ℚ) + 2) * H)) * (H / 3) =
    ∑ j in Finset.range (m' + 1),
      (f (a + 2 * (j : ℚ) * H) + 4 * f (a + (2 * (j : ℚ) + 1) * H)
        + f (a + (2 * (j : ℚ) + 2) * H)) * (H / 3) := by
  have hA : ∑ j in Finset.range (m' + 1), f (a + 2 * (j : ℚ) * H)
      = f a + ∑ i in Finset.range m', f (a + (2 * (i : ℚ) + 2) * H) := by
    rw [Finset.sum_range_succ']
    have h0 : a + 2 * ((0 : ℕ) : ℚ) * H = a := by norm_num
    rw [h0, add_comm]
    congr 1
    refine Finset.sum_congr rfl fun i _ => ?_
    have hi : 2 * ((i + 1 : ℕ) : ℚ) * H = (2 * (i : ℚ) + 2) * H := by push_cast; ring
    rw [hi]
  have hC : ∑ j in Finset.range (m' + 1), f (a + (2 * (j : ℚ) + 2) * H)
      = (∑ i in Finset.range m', f (a + (2 * (i : ℚ) + 2) * H)) + f b := by
    rw [Finset.sum_range_succ]
    congr 1
    exact congrArg f hb
  rw [← Finset.sum_mul]
  congr 1
  rw [Finset.sum_add_distrib, Finset.sum_add_distrib, ← Finset.mul_sum, hA, hC]
  ring

/-- C7: on the general cubic c0 + c1 t + c2 t² + c3 t³ with any rational
bounds and any even subinterval count 2m ≥ 2, the composite Simpson rule
computes exactly the true definite integral, the difference of the
antiderivative's values at the bounds. -/
theorem simpsons_rule_cubic_exact (c0 c1 c2 c3 a b : ℚ) (m : ℕ) (hm : 1 ≤ m) :
    simpsons_rule (fun t => c0 + c1 * t + c2 * t ^ 2 + c3 * t ^ 3) a b (2 * m) =
      c0 * (b - a) + c1 * (b ^ 2 - a ^ 2) / 2 + c2 * (b ^ 3 - a ^ 3) / 3 +
        c3 * (b ^ 4 - a ^ 4) / 4 := by
  obtain ⟨m', rfl⟩ : ∃ m'', m = m'' + 1 := ⟨m - 1, by omega⟩
  have e1 : 2 * (m' + 1) / 2 = m' + 1 := by omega
  have e2 : (2 * (m' + 1) - 2) / 2 = m' := by omega
  simp only [simpsons_rule]
  rw [e1, e2]
  set H : ℚ := (b - a) / ((2 * (m' + 1) : ℕ) : ℚ) with hH
  have hb : a + (2 * (m' : ℚ) + 2) * H = b := by
    rw [hH]
    have hcast : ((2 * (m' + 1) : ℕ) : ℚ) = 2 * (m' : ℚ) + 2 := by push_cast; ring
    rw [hcast]
    have hne : 2 * (m' : ℚ) + 2 ≠ 0 := by positivity
    field_simp
  have hform := simpsons_sum_form (fun t => c0 + c1 * t + c2 * t ^ 2 + c3 * t ^ 3)
    a b H m' hb
  simp only at hform
  set g : ℕ → ℚ := fun jj => cubicPrim c0 c1 c2 c3 (a + 2 * (jj : ℚ) * H) with hg
  have h2 : ∑ j in Finset.range (m' + 1),
      ((c0 + c1 * (a + 2 * (j : ℚ) * H) + c2 * (a + 2 * (j : ℚ) * H) ^ 2
          + c3 * (a + 2 * (j : ℚ) * H) ^ 3)
        + 4 * (c0 + c1 * (a + (2 * (j : ℚ) + 1) * H) + c2 * (a + (2 * (j : ℚ) + 1) * H) ^ 2
          + c3 * (a + (2 * (j : ℚ) + 1) * H) ^ 3)
        + (c0 + c1 * (a + (2 * (j : ℚ) + 2) * H) + c2 * (a + (2 * (j : ℚ) + 2) * H) ^ 2
          + c3 * (a + (2 * (j : ℚ) + 2) * H) ^ 3)) * (H / 3)
      = g (m' + 1) - g 0 := by
    rw [← Finset.sum_range_sub g (m' + 1)]
    refine Finset.sum_congr rfl fun j _ => ?_
    rw [hg]
    simp only [cubicPrim]
    push_cast
    ring
  rw [hform, h2, hg]
  simp only [cubicPrim]
  push_cast
  rw [← hb]
  ring

/-- C7 witness: Simpson with n = 2 integrates t³ over [0, 2] exactly. -/
theorem simpsons_rule_cubic_exact_witness :
    simpsons_rule (fun t => (0 : ℚ) + 0 * t + 0 * t ^ 2 + 1 * t ^ 3) 0 2 (2 * 1) =
      0 * ((2 : ℚ) - 0) + 0 * ((2 : ℚ) ^ 2 - 0 ^ 2) / 2 + 0 * ((2 : ℚ) ^ 3 - 0 ^ 3) / 3 +
        1 * ((2 : ℚ) ^ 4 - 0 ^ 4) / 4 :=
  simpsons_rule_cubic_exact 0 0 0 1 0 2 1 (le_refl 1)
end Hw6
